/-
  Verification of the `MergeAdjacentBarriers` transpiler pass
  (qiskit/transpiler/passes/merge_adjacent_barriers.py).

  The pass operates on a DAG circuit.  The DAG substrate itself
  (`DAGCircuit`, `topological_op_nodes`, `ancestors`, `descendants`,
  `apply_operation_back`) is not part of the verified sources, so it is
  modelled from the specification: a graph is determined by its registers
  and the append-ordered list of operation nodes; each resource ("wire")
  induces edges between consecutive nodes touching it; ancestors and
  descendants are transitive reachability along those edges; the
  topological iterator yields nodes in append order (a valid, deterministic
  linearization, tie-broken by append order).

  The collector `_collect_potential_merges` and the rewriter `run` are
  translated directly from the source.
-/
import Mathlib

/-- An operation: its name tag and declared number of qubits.
A barrier of width `n` is `⟨"barrier", n⟩`. -/
structure Op where
  name : String
  num_qubits : Nat
deriving DecidableEq, Repr

/-- The barrier constructor: `Barrier(n)` in the source. -/
def Barrier (n : Nat) : Op :=
  ⟨"barrier", n⟩

/-- A DAG operation node: a stable identity, the operation, the ordered
qubit operand list, the ordered classical operand list and an optional
classical condition (register index, expected value).  Node identity is
structural equality; well-formed graphs give nodes distinct `nid`s. -/
structure Node where
  nid : Nat
  op : Op
  qargs : List Nat
  cargs : List Nat
  condition : Option (Nat × Nat)
deriving DecidableEq, Repr

/-- The projection of a node that forgets its identity: operation, qubit
operands, classical operands and condition.  Two nodes with the same strip
are exact copies of one another. -/
abbrev Strip := Op × List Nat × List Nat × Option (Nat × Nat)

/-- Strip a node of its identity. -/
def Node.strip (n : Node) : Strip :=
  (n.op, n.qargs, n.cargs, n.condition)

/-- Modelled from the spec: a resource wire is either a qubit or a
classical bit. -/
inductive Wire where
  | q (i : Nat)
  | c (i : Nat)
deriving DecidableEq, Repr

/-- Modelled from the spec: the wires a node touches are its qubit
operands and its classical operands. -/
def Node.wires (n : Node) : List Wire :=
  n.qargs.map Wire.q ++ n.cargs.map Wire.c

/-- Modelled from the spec: a graph is its quantum registers, classical
registers, and the append-ordered list of operation nodes.  Each wire's
chain is the subsequence of nodes touching that wire, in append order. -/
structure DAG where
  qregs : List (String × Nat)
  cregs : List (String × Nat)
  nodes : List Node
deriving DecidableEq, Repr

/-- Modelled from the spec: appending an operation creates a node with a
fresh serial identity and links it after the current last node of each of
its wires (implicit in the list order). -/
def DAG.apply_operation_back (g : DAG) (op : Op) (qargs cargs : List Nat)
    (condition : Option (Nat × Nat)) : DAG :=
  { g with nodes := g.nodes ++ [⟨g.nodes.length, op, qargs, cargs, condition⟩] }

/-- Modelled from the spec: the deterministic topological linearization of
the operation nodes; append order is a valid linearization (every wire
edge goes forward in append order) and is the specified tie-break. -/
def DAG.topological_op_nodes (g : DAG) : List Node :=
  g.nodes

/-- The chain of nodes touching wire `w`, in order. -/
def wireNodes (g : DAG) (w : Wire) : List Node :=
  g.nodes.filter (fun n => decide (w ∈ n.wires))

/-- Consecutive pairs of a list. -/
def consecutivePairs (l : List Node) : List (Node × Node) :=
  l.zip l.tail

/-- Modelled from the spec: there is an edge from `a` to `b` when they are
consecutive on some wire of `a`. -/
def edgeB (g : DAG) (a b : Node) : Bool :=
  a.wires.any (fun w => (consecutivePairs (wireNodes g w)).any (fun p => decide (p = (a, b))))

/-- Reachability along edges with at most `fuel + 1` steps. -/
def reachB (g : DAG) : Nat → Node → Node → Bool
  | 0, a, b => edgeB g a b
  | fuel + 1, a, b => edgeB g a b || g.nodes.any (fun m => edgeB g a m && reachB g fuel m b)

/-- Modelled from the spec: `Ancestors(n)` is the set of nodes with a
directed path to `n` (excluding `n` itself, as the graph is acyclic). -/
def DAG.ancestors (g : DAG) (n : Node) : Finset Node :=
  (g.nodes.filter (fun a => reachB g g.nodes.length a n)).toFinset

/-- Modelled from the spec: `Descendants(n)` is the set of nodes reachable
from `n` (excluding `n` itself, as the graph is acyclic). -/
def DAG.descendants (g : DAG) (n : Node) : Finset Node :=
  (g.nodes.filter (fun d => reachB g g.nodes.length n d)).toFinset

/-- The marker nodes of the graph in topological order: the filter of the
topological walk on the name `"barrier"` (source, `run` line 43). -/
def barriersOf (g : DAG) : List Node :=
  g.topological_op_nodes.filter (fun nd => nd.op.name == "barrier")

/-- The loop state of `_collect_potential_merges`: the open group's union
qubit set, union ancestor set, union descendant set, member list, the
current anchor (`end_of_barrier`) and the mapping built so far. -/
structure CollectState where
  current_qubits : Finset Nat
  current_ancestors : Finset Node
  current_descendants : Finset Node
  current_barrier_nodes : List Node
  end_of_barrier : Node
  node_to_barrier_qubits : List (Node × Finset Nat)
deriving DecidableEq

/-- The body of the `for next_barrier in barriers[1:]` loop of
`_collect_potential_merges`, translated directly from the source. -/
def collectStep (anc desc : Node → Finset Node) (s : CollectState) (next_barrier : Node) :
    CollectState :=
  let next_ancestors := (anc next_barrier).filter (fun nd => nd ∉ s.current_barrier_nodes)
  let next_descendants := (desc next_barrier).filter (fun nd => nd ∉ s.current_barrier_nodes)
  let next_qubits := next_barrier.qargs.toFinset
  if s.current_qubits ∩ next_qubits ≠ ∅
      ∧ s.current_ancestors ∩ next_descendants = ∅
      ∧ s.current_descendants ∩ next_ancestors = ∅ then
    { current_qubits := s.current_qubits ∪ next_qubits
      current_ancestors := s.current_ancestors ∪ next_ancestors
      current_descendants := s.current_descendants ∪ next_descendants
      current_barrier_nodes := s.current_barrier_nodes ++ [next_barrier]
      end_of_barrier := next_barrier
      node_to_barrier_qubits := s.node_to_barrier_qubits }
  else
    { current_qubits := next_barrier.qargs.toFinset
      current_ancestors := anc next_barrier
      current_descendants := desc next_barrier
      current_barrier_nodes := [next_barrier]
      end_of_barrier := next_barrier
      node_to_barrier_qubits :=
        s.node_to_barrier_qubits ++ [(s.end_of_barrier, s.current_qubits)] }

/-- The state seeded from the first barrier (source lines 90-98). -/
def initState (anc desc : Node → Finset Node) (b0 : Node) : CollectState :=
  { current_qubits := b0.qargs.toFinset
    current_ancestors := anc b0
    current_descendants := desc b0
    current_barrier_nodes := [b0]
    end_of_barrier := b0
    node_to_barrier_qubits := [] }

/-- `MergeAdjacentBarriers._collect_potential_merges`, translated from the
source.  `anc` and `desc` are the graph's reachability oracles.  Returns
`none` (Python `None`) when fewer than two barriers exist; otherwise the
anchor-to-qubit-set mapping as an association list in insertion order.
The Python `if barrier_to_add:` guard is always true (a `Barrier` object
is unconditionally truthy), so every group close stores an entry. -/
def collect_potential_merges (anc desc : Node → Finset Node) (barriers : List Node) :
    Option (List (Node × Finset Nat)) :=
  if barriers.length < 2 then none
  else
    match barriers with
    | [] => none
    | b0 :: rest =>
      let s := rest.foldl (collectStep anc desc) (initState anc desc b0)
      some (s.node_to_barrier_qubits ++ [(s.end_of_barrier, s.current_qubits)])

/-- Association-list lookup, modelling the Python dict keyed by node
identity. -/
def lookupMap (n : Node) : List (Node × Finset Nat) → Option (Finset Nat)
  | [] => none
  | (k, v) :: t => if n = k then some v else lookupMap n t

/-- The listing of a qubit set, modelling Python's `list(qubits)` on a set
(the iteration order of a set is unspecified; the model lists in
increasing order, which is deterministic). -/
def listOfQubits (q : Finset Nat) : List Nat :=
  (List.range (q.sup id + 1)).filter (fun x => decide (x ∈ q))

/-- One step of the rewrite loop of `run` (source lines 60-72): a barrier
that is a mapping key becomes a fresh barrier sized to the mapped qubit
set; a barrier that is not a key is dropped; any other node is copied with
its operands and condition verbatim. -/
def buildStep (m : List (Node × Finset Nat)) (acc : DAG) (node : Node) : DAG :=
  if node.op.name == "barrier" then
    match lookupMap node m with
    | some qubits => acc.apply_operation_back (Barrier qubits.card) (listOfQubits qubits) [] none
    | none => acc
  else
    acc.apply_operation_back node.op node.qargs node.cargs node.condition

/-- What one walked node contributes to the output, up to node identity:
a barrier that is a mapping key yields a fresh barrier sized to the mapped
qubit set, a barrier that is not a key yields nothing, and any other node
yields an exact copy of itself (the per-node content of `buildStep`). -/
def emit (m : List (Node × Finset Nat)) (nd : Node) : Option Strip :=
  if nd.op.name == "barrier" then
    match lookupMap nd m with
    | some qubits => some (Barrier qubits.card, listOfQubits qubits, [], none)
    | none => none
  else some nd.strip

/-- `MergeAdjacentBarriers.run`, translated from the source: collect the
merge mapping; if it is falsy (Python `None` or empty dict) return the
input graph itself; otherwise build a new graph with the input's registers
by walking the topological order through `buildStep`. -/
def run (dag : DAG) : DAG :=
  let barriers := barriersOf dag
  match collect_potential_merges dag.ancestors dag.descendants barriers with
  | none => dag
  | some m =>
    if m.isEmpty then dag
    else dag.topological_op_nodes.foldl (buildStep m) ⟨dag.qregs, dag.cregs, []⟩

/-- The pass as the spec's `transform(graph) -> graph'` contract. -/
def transform (dag : DAG) : DAG :=
  run dag

/-
  Specification-level description of the collector (written from the
  spec's and the claims' words, §4.2): barriers are scanned in order and
  greedily grouped; a subsequent marker `B` is absorbed into the current
  group exactly when the three conditions (a)-(c) hold, with `B`'s
  ancestor and descendant sets first reduced by the nodes already absorbed
  into the group; otherwise the group is closed (anchored at its last
  member) and a new group is seeded with `B` alone.
-/

/-- The union of the resource (qubit) sets of a group's members. -/
def grpQubits (grp : List Node) : Finset Nat :=
  grp.foldl (fun acc nd => acc ∪ nd.qargs.toFinset) ∅

/-- Accumulation helper for the group's union reachability set: each
subsequent member's set is reduced by the members already in the group
before being unioned in. -/
def grpReachAux (f : Node → Finset Node) (mem : List Node) (acc : Finset Node) :
    List Node → Finset Node
  | [] => acc
  | b :: rest => grpReachAux f (mem ++ [b]) (acc ∪ (f b).filter (fun nd => nd ∉ mem)) rest

/-- The group's union reachability set under oracle `f` (instantiated with
ancestors or descendants): the seed's own set, then each absorbed member's
set pruned of the nodes already absorbed at that point. -/
def grpReach (f : Node → Finset Node) : List Node → Finset Node
  | [] => ∅
  | b :: rest => grpReachAux f [b] (f b) rest

/-- The merge test of §4.2 rule 3 for absorbing `b` into the group `grp`:
(a) the qubit sets intersect, (b) the group's ancestors are disjoint from
`b`'s descendants, and (c) the group's descendants are disjoint from `b`'s
ancestors, where `b`'s two sets are first reduced by removing every node
already absorbed into the group. -/
def mergeCond (anc desc : Node → Finset Node) (grp : List Node) (b : Node) : Prop :=
  grpQubits grp ∩ b.qargs.toFinset ≠ ∅
  ∧ grpReach anc grp ∩ ((desc b).filter (fun nd => nd ∉ grp)) = ∅
  ∧ grpReach desc grp ∩ ((anc b).filter (fun nd => nd ∉ grp)) = ∅

instance (anc desc : Node → Finset Node) (grp : List Node) (b : Node) :
    Decidable (mergeCond anc desc grp b) := by
  unfold mergeCond
  exact inferInstance

/-- Greedy grouping of the remaining barriers, with `cur` the open group:
absorb when `mergeCond` holds, otherwise close `cur` and seed a new group. -/
def specGo (anc desc : Node → Finset Node) (cur : List Node) : List Node → List (List Node)
  | [] => [cur]
  | b :: rest =>
    if mergeCond anc desc cur b then specGo anc desc (cur ++ [b]) rest
    else cur :: specGo anc desc [b] rest

/-- The merge groups of a barrier sequence per the spec: seed the first
group with the first marker, then scan greedily. -/
def specGroups (anc desc : Node → Finset Node) : List Node → List (List Node)
  | [] => []
  | b :: rest => specGo anc desc [b] rest

/-- A throwaway default node (groups are never empty). -/
def dummyNode : Node :=
  ⟨0, ⟨"", 0⟩, [], [], none⟩

/-- The anchor of a group: its last member. -/
def anchorOf (grp : List Node) : Node :=
  grp.getLastD dummyNode

/-- The spec-level output mapping: one entry per merge group, keyed by the
group's anchor and carrying the union qubit set. -/
def specMapping (anc desc : Node → Finset Node) (bs : List Node) : List (Node × Finset Nat) :=
  (specGroups anc desc bs).map (fun grp => (anchorOf grp, grpQubits grp))

/-- The collector state corresponding to an open group `cur` and an
already-produced mapping `acc` (proof scaffolding for the refinement). -/
def stateFor (anc desc : Node → Finset Node) (cur : List Node)
    (acc : List (Node × Finset Nat)) : CollectState :=
  ⟨grpQubits cur, grpReach anc cur, grpReach desc cur, cur, anchorOf cur, acc⟩

/- Concrete example graphs used as witnesses and counterexamples. -/

/-- An empty graph over the single quantum register `("q", n)`. -/
def emptyQ (n : Nat) : DAG :=
  ⟨[("q", n)], [], []⟩

/-- Two adjacent one-qubit barriers on the same qubit:
`barrier q[0]; barrier q[0]`. -/
def dagTwoBarriers : DAG :=
  ((emptyQ 1).apply_operation_back (Barrier 1) [0] [] none).apply_operation_back
    (Barrier 1) [0] [] none

/-- `barrier q[0]; x q[0]; barrier q[0]` — an ordinary operation between
two barriers on the same qubit. -/
def dagBarrierOpBarrier : DAG :=
  (((emptyQ 1).apply_operation_back (Barrier 1) [0] [] none).apply_operation_back
      ⟨"x", 1⟩ [0] [] none).apply_operation_back (Barrier 1) [0] [] none

/-- The docstring example: `barrier q[0]; barrier q[1]; barrier q[0],q[1],q[2]`. -/
def dagDocstring : DAG :=
  (((emptyQ 3).apply_operation_back (Barrier 1) [0] [] none).apply_operation_back
      (Barrier 1) [1] [] none).apply_operation_back (Barrier 3) [0, 1, 2] [] none

/-- A single barrier: `barrier q[0]`. -/
def dagOneBarrier : DAG :=
  (emptyQ 1).apply_operation_back (Barrier 1) [0] [] none

/-- The first node of `dagTwoBarriers` (also of `dagBarrierOpBarrier`). -/
def tbNode0 : Node :=
  ⟨0, Barrier 1, [0], [], none⟩

/-- The second node of `dagTwoBarriers`. -/
def tbNode1 : Node :=
  ⟨1, Barrier 1, [0], [], none⟩

/-- The intervening `x` operation of `dagBarrierOpBarrier`. -/
def xNode : Node :=
  ⟨1, ⟨"x", 1⟩, [0], [], none⟩

/-- The final barrier of `dagBarrierOpBarrier`. -/
def bobNode2 : Node :=
  ⟨2, Barrier 1, [0], [], none⟩

/- Refinement: the source collector equals the spec-level grouping. -/

theorem grpQubits_singleton (b : Node) : grpQubits [b] = b.qargs.toFinset := by
  simp [grpQubits]

theorem grpQubits_concat (l : List Node) (b : Node) :
    grpQubits (l ++ [b]) = grpQubits l ∪ b.qargs.toFinset := by
  simp [grpQubits, List.foldl_append]

theorem grpReach_singleton (f : Node → Finset Node) (b : Node) : grpReach f [b] = f b := rfl

theorem grpReachAux_concat (f : Node → Finset Node) (b : Node) :
    ∀ (rest mem : List Node) (acc : Finset Node),
      grpReachAux f mem acc (rest ++ [b])
        = grpReachAux f mem acc rest ∪ (f b).filter (fun nd => nd ∉ mem ++ rest) := by
  intro rest
  induction rest with
  | nil => intro mem acc; simp [grpReachAux]
  | cons c rest ih =>
    intro mem acc
    show grpReachAux f (mem ++ [c]) _ (rest ++ [b]) = _
    rw [ih]
    simp [grpReachAux, List.append_assoc]

theorem grpReach_concat (f : Node → Finset Node) (cur : List Node) (hcur : cur ≠ [])
    (b : Node) :
    grpReach f (cur ++ [b]) = grpReach f cur ∪ (f b).filter (fun nd => nd ∉ cur) := by
  cases cur with
  | nil => exact absurd rfl hcur
  | cons c0 ct =>
    show grpReachAux f [c0] (f c0) (ct ++ [b]) = _
    rw [grpReachAux_concat]
    simp [grpReach]

theorem anchorOf_concat (l : List Node) (b : Node) : anchorOf (l ++ [b]) = b := by
  simp [anchorOf, List.getLastD_concat]

theorem anchorOf_singleton (b : Node) : anchorOf [b] = b := rfl

theorem stateFor_singleton (anc desc : Node → Finset Node) (b : Node)
    (acc : List (Node × Finset Nat)) :
    stateFor anc desc [b] acc = ⟨b.qargs.toFinset, anc b, desc b, [b], b, acc⟩ := by
  simp [stateFor, grpQubits_singleton, grpReach_singleton, anchorOf_singleton]

theorem collectStep_stateFor (anc desc : Node → Finset Node) (cur : List Node)
    (hcur : cur ≠ []) (acc : List (Node × Finset Nat)) (b : Node) :
    collectStep anc desc (stateFor anc desc cur acc) b
      = if mergeCond anc desc cur b then stateFor anc desc (cur ++ [b]) acc
        else stateFor anc desc [b] (acc ++ [(anchorOf cur, grpQubits cur)]) := by
  by_cases h : mergeCond anc desc cur b
  · rw [if_pos h]
    unfold mergeCond at h
    unfold collectStep stateFor
    rw [if_pos h]
    simp [grpQubits_concat, grpReach_concat _ _ hcur, anchorOf_concat]
  · rw [if_neg h]
    unfold mergeCond at h
    unfold collectStep stateFor
    rw [if_neg h]
    simp [stateFor_singleton, grpQubits_singleton, grpReach_singleton, anchorOf_singleton]

theorem foldl_collectStep_spec (anc desc : Node → Finset Node) :
    ∀ (rest cur : List Node), cur ≠ [] → ∀ (acc : List (Node × Finset Nat)),
      (rest.foldl (collectStep anc desc) (stateFor anc desc cur acc)).node_to_barrier_qubits
          ++ [((rest.foldl (collectStep anc desc) (stateFor anc desc cur acc)).end_of_barrier,
              (rest.foldl (collectStep anc desc) (stateFor anc desc cur acc)).current_qubits)]
        = acc ++ (specGo anc desc cur rest).map (fun grp => (anchorOf grp, grpQubits grp)) := by
  intro rest
  induction rest with
  | nil =>
    intro cur hcur acc
    simp [specGo, stateFor]
  | cons b rest ih =>
    intro cur hcur acc
    simp only [List.foldl_cons]
    rw [collectStep_stateFor anc desc cur hcur acc b]
    by_cases h : mergeCond anc desc cur b
    · rw [if_pos h, ih (cur ++ [b]) (by simp) acc]
      simp [specGo, h]
    · rw [if_neg h, ih [b] (by simp) (acc ++ [(anchorOf cur, grpQubits cur)])]
      simp [specGo, h]

theorem collect_eq_spec (anc desc : Node → Finset Node) (bs : List Node)
    (h2 : 2 ≤ bs.length) :
    collect_potential_merges anc desc bs = some (specMapping anc desc bs) := by
  cases bs with
  | nil => simp at h2
  | cons b0 rest =>
    have hinit : initState anc desc b0 = stateFor anc desc [b0] [] := by
      rw [stateFor_singleton]
      rfl
    unfold collect_potential_merges
    rw [if_neg (by simp at h2 ⊢; omega)]
    show some ((rest.foldl (collectStep anc desc) (initState anc desc b0)).node_to_barrier_qubits
        ++ [((rest.foldl (collectStep anc desc) (initState anc desc b0)).end_of_barrier,
            (rest.foldl (collectStep anc desc) (initState anc desc b0)).current_qubits)])
      = some (specMapping anc desc (b0 :: rest))
    rw [hinit, Option.some_inj]
    rw [foldl_collectStep_spec anc desc rest [b0] (by simp) []]
    simp [specMapping, specGroups]

/- Characterization of the rewriter. -/

theorem buildStep_qregs (m : List (Node × Finset Nat)) (acc : DAG) (nd : Node) :
    (buildStep m acc nd).qregs = acc.qregs := by
  unfold buildStep
  split
  · split <;> rfl
  · rfl

theorem buildStep_cregs (m : List (Node × Finset Nat)) (acc : DAG) (nd : Node) :
    (buildStep m acc nd).cregs = acc.cregs := by
  unfold buildStep
  split
  · split <;> rfl
  · rfl

theorem buildFold_qregs (m : List (Node × Finset Nat)) :
    ∀ (ns : List Node) (acc : DAG), (ns.foldl (buildStep m) acc).qregs = acc.qregs := by
  intro ns
  induction ns with
  | nil => intro acc; rfl
  | cons nd ns ih => intro acc; rw [List.foldl_cons, ih, buildStep_qregs]

theorem buildFold_cregs (m : List (Node × Finset Nat)) :
    ∀ (ns : List Node) (acc : DAG), (ns.foldl (buildStep m) acc).cregs = acc.cregs := by
  intro ns
  induction ns with
  | nil => intro acc; rfl
  | cons nd ns ih => intro acc; rw [List.foldl_cons, ih, buildStep_cregs]

theorem buildFold_strip (m : List (Node × Finset Nat)) :
    ∀ (ns : List Node) (acc : DAG),
      ((ns.foldl (buildStep m) acc).nodes).map Node.strip
        = acc.nodes.map Node.strip ++ ns.filterMap (emit m) := by
  intro ns
  induction ns with
  | nil => intro acc; simp
  | cons nd ns ih =>
    intro acc
    rw [List.foldl_cons, ih]
    cases hb : (nd.op.name == "barrier") with
    | false =>
      simp only [buildStep, emit, hb, Bool.false_eq_true, if_false, List.filterMap_cons]
      simp [DAG.apply_operation_back, Node.strip]
    | true =>
      cases hl : lookupMap nd m with
      | none =>
        simp only [buildStep, emit, hb, if_true, hl, List.filterMap_cons]
      | some q =>
        simp only [buildStep, emit, hb, if_true, hl, List.filterMap_cons]
        simp [DAG.apply_operation_back, Node.strip]

theorem specGo_ne_nil (anc desc : Node → Finset Node) :
    ∀ (rest cur : List Node), specGo anc desc cur rest ≠ [] := by
  intro rest
  induction rest with
  | nil => intro cur; simp [specGo]
  | cons b rest ih =>
    intro cur
    unfold specGo
    split
    · exact ih (cur ++ [b])
    · simp

theorem collect_some_ne_nil (anc desc : Node → Finset Node) (bs : List Node)
    (m : List (Node × Finset Nat))
    (h : collect_potential_merges anc desc bs = some m) : m ≠ [] := by
  by_cases h2 : 2 ≤ bs.length
  · rw [collect_eq_spec anc desc bs h2] at h
    have hm : m = specMapping anc desc bs := (Option.some_inj.mp h).symm
    subst hm
    cases bs with
    | nil => simp at h2
    | cons b0 rest =>
      simp only [specMapping, specGroups, ne_eq, List.map_eq_nil_iff]
      exact specGo_ne_nil anc desc rest [b0]
  · have hlt : bs.length < 2 := by omega
    unfold collect_potential_merges at h
    rw [if_pos hlt] at h
    exact absurd h (by simp)

theorem run_eq_build (d : DAG) (m : List (Node × Finset Nat))
    (hm : collect_potential_merges d.ancestors d.descendants (barriersOf d) = some m) :
    run d = d.nodes.foldl (buildStep m) ⟨d.qregs, d.cregs, []⟩ := by
  have hne : m ≠ [] := collect_some_ne_nil _ _ _ _ hm
  have hemp : m.isEmpty = false := by
    cases m with
    | nil => exact absurd rfl hne
    | cons a t => rfl
  simp only [run, hm, hemp, Bool.false_eq_true, if_false]
  rfl

theorem filterMap_emit_nonbarrier (m : List (Node × Finset Nat)) :
    ∀ ns : List Node,
      (ns.filterMap (emit m)).filter (fun s => !(s.1.name == "barrier"))
        = (ns.filter (fun nd => !(nd.op.name == "barrier"))).map Node.strip := by
  intro ns
  induction ns with
  | nil => rfl
  | cons nd ns ih =>
    cases hb : (nd.op.name == "barrier") with
    | false =>
      simp only [emit, hb, Bool.false_eq_true, if_false, List.filterMap_cons, List.filter_cons]
      simp [Node.strip, hb, ih]
    | true =>
      cases hl : lookupMap nd m with
      | none =>
        simp only [emit, hb, if_true, hl, List.filterMap_cons, List.filter_cons]
        simp [hb, ih]
      | some q =>
        simp only [emit, hb, if_true, hl, List.filterMap_cons, List.filter_cons]
        simp [Barrier, hb, ih]

/-- C3: `transform` preserves the non-marker structure exactly — every
non-marker node of the input reappears in the output as an exact copy
(same operation, same ordered qubit and classical operand lists, same
condition), in the same order, the non-marker node count is unchanged and
the quantum and classical registers are unchanged. -/
theorem transform_preserves_nonmarker_structure (d : DAG) :
    (transform d).qregs = d.qregs ∧ (transform d).cregs = d.cregs ∧
    ((transform d).nodes.filter (fun nd => !(nd.op.name == "barrier"))).map Node.strip
      = (d.nodes.filter (fun nd => !(nd.op.name == "barrier"))).map Node.strip ∧
    ((transform d).nodes.filter (fun nd => !(nd.op.name == "barrier"))).length
      = (d.nodes.filter (fun nd => !(nd.op.name == "barrier"))).length := by
  cases hm : collect_potential_merges d.ancestors d.descendants (barriersOf d) with
  | none =>
    have hid : transform d = d := by
      simp only [transform, run, hm]
    rw [hid]
    exact ⟨rfl, rfl, rfl, rfl⟩
  | some m =>
    have hb : transform d = d.nodes.foldl (buildStep m) ⟨d.qregs, d.cregs, []⟩ :=
      run_eq_build d m hm
    have hstrip : ((transform d).nodes).map Node.strip = d.nodes.filterMap (emit m) := by
      rw [hb, buildFold_strip]
      rfl
    have hfil : ((transform d).nodes.filter (fun nd => !(nd.op.name == "barrier"))).map Node.strip
        = (d.nodes.filter (fun nd => !(nd.op.name == "barrier"))).map Node.strip := by
      have h1 : ((transform d).nodes.filter (fun nd => !(nd.op.name == "barrier"))).map Node.strip
          = ((transform d).nodes.map Node.strip).filter (fun s => !(s.1.name == "barrier")) := by
        rw [List.filter_map]
        rfl
      rw [h1, hstrip, filterMap_emit_nonbarrier]
    refine ⟨?_, ?_, hfil, ?_⟩
    · rw [hb, buildFold_qregs]
    · rw [hb, buildFold_cregs]
    · have := congrArg List.length hfil
      simpa using this

/-- C6: with fewer than two marker nodes the collector yields the falsy
result (Python `None`) and `transform` returns the input graph itself,
taking the early-return path that constructs no copy. -/
theorem transform_identity_of_lt_two_barriers (d : DAG)
    (h : (barriersOf d).length < 2) :
    collect_potential_merges d.ancestors d.descendants (barriersOf d) = none
    ∧ transform d = d := by
  have hc : collect_potential_merges d.ancestors d.descendants (barriersOf d) = none := by
    unfold collect_potential_merges
    rw [if_pos h]
  exact ⟨hc, by simp only [transform, run, hc]⟩

/-- C6 witness: a single-barrier graph is returned unchanged. -/
theorem transform_identity_of_lt_two_barriers_witness :
    (barriersOf dagOneBarrier).length < 2
    ∧ (collect_potential_merges dagOneBarrier.ancestors dagOneBarrier.descendants
        (barriersOf dagOneBarrier) = none
      ∧ transform dagOneBarrier = dagOneBarrier) :=
  ⟨by decide, transform_identity_of_lt_two_barriers dagOneBarrier (by decide)⟩

/-- C10: with two or more marker nodes the collector's mapping is
non-empty (the final open group is always closed into an entry), so
`transform` takes the construction branch and returns the freshly built
graph rather than the early-return input. -/
theorem transform_builds_of_two_barriers (d : DAG)
    (h2 : 2 ≤ (barriersOf d).length) :
    ∃ m, collect_potential_merges d.ancestors d.descendants (barriersOf d) = some m
      ∧ m ≠ []
      ∧ transform d = d.nodes.foldl (buildStep m) ⟨d.qregs, d.cregs, []⟩ := by
  have hc := collect_eq_spec d.ancestors d.descendants (barriersOf d) h2
  exact ⟨specMapping d.ancestors d.descendants (barriersOf d), hc,
    collect_some_ne_nil _ _ _ _ hc, run_eq_build d _ hc⟩

/-- C10 witness: the barrier-op-barrier graph has two barriers and the
construction branch is taken (the output is structurally identical to the
input here, yet still freshly built). -/
theorem transform_builds_of_two_barriers_witness :
    2 ≤ (barriersOf dagBarrierOpBarrier).length
    ∧ ∃ m, collect_potential_merges dagBarrierOpBarrier.ancestors
          dagBarrierOpBarrier.descendants (barriersOf dagBarrierOpBarrier) = some m
        ∧ m ≠ []
        ∧ transform dagBarrierOpBarrier
            = dagBarrierOpBarrier.nodes.foldl (buildStep m)
                ⟨dagBarrierOpBarrier.qregs, dagBarrierOpBarrier.cregs, []⟩ :=
  ⟨by decide, transform_builds_of_two_barriers dagBarrierOpBarrier (by decide)⟩

/-- C9: the pass is a pure function of the input graph (there is no
mutation in the model — `transform` only reads `d`): when the collector is
falsy the very input is returned; and in every case each output node is
either a freshly created marker (a barrier with no classical operands and
no condition) or an exact copy of some input node. -/
theorem transform_pure_output_composition (d : DAG) :
    (collect_potential_merges d.ancestors d.descendants (barriersOf d) = none
      → transform d = d)
    ∧ ∀ nd ∈ (transform d).nodes,
        (nd.op.name = "barrier" ∧ nd.cargs = [] ∧ nd.condition = none)
        ∨ nd.strip ∈ d.nodes.map Node.strip := by
  constructor
  · intro hc
    simp only [transform, run, hc]
  · intro nd hnd
    cases hm : collect_potential_merges d.ancestors d.descendants (barriersOf d) with
    | none =>
      right
      have hid : transform d = d := by simp only [transform, run, hm]
      rw [hid] at hnd
      exact List.mem_map_of_mem _ hnd
    | some m =>
      have hstrip : ((transform d).nodes).map Node.strip = d.nodes.filterMap (emit m) := by
        show ((run d).nodes).map Node.strip = d.nodes.filterMap (emit m)
        rw [run_eq_build d m hm, buildFold_strip]
        rfl
      have hmem : nd.strip ∈ d.nodes.filterMap (emit m) := by
        rw [← hstrip]
        exact List.mem_map_of_mem _ hnd
      obtain ⟨src, hsrc, hemit⟩ := List.mem_filterMap.mp hmem
      cases hb : (src.op.name == "barrier") with
      | true =>
        left
        cases hl : lookupMap src m with
        | none =>
          rw [emit, if_pos hb, hl] at hemit
          exact absurd hemit (by simp)
        | some q =>
          rw [emit, if_pos hb, hl] at hemit
          have h4 : (Barrier q.card, listOfQubits q, ([] : List Nat),
              (none : Option (Nat × Nat))) = (nd.op, nd.qargs, nd.cargs, nd.condition) :=
            Option.some_inj.mp hemit
          refine ⟨?_, ?_, ?_⟩
          · have : nd.op = Barrier q.card := by
              simpa using congrArg Prod.fst h4.symm
            rw [this]
            rfl
          · simpa using congrArg (fun p => p.2.2.1) h4.symm
          · simpa using congrArg (fun p => p.2.2.2) h4.symm
      | false =>
        right
        rw [emit, if_neg (by simp [hb])] at hemit
        have : src.strip = nd.strip := Option.some_inj.mp hemit
        rw [← this]
        exact List.mem_map_of_mem _ hsrc

/-- C1: a subsequent marker is absorbed into the current group exactly
when conditions (a) qubit overlap, (b) `ancestors(G)` disjoint from
`descendants(B)` and (c) `descendants(G)` disjoint from `ancestors(B)`
hold, with `B`'s two sets first reduced by the nodes already absorbed; on
any failure the group is closed into the mapping and a new group is
seeded with `B` alone — the collector equals the greedy spec grouping. -/
theorem collector_refines_spec_grouping (anc desc : Node → Finset Node) (bs : List Node)
    (h2 : 2 ≤ bs.length) :
    collect_potential_merges anc desc bs = some (specMapping anc desc bs) :=
  collect_eq_spec anc desc bs h2

/-- C1 witness: the refinement evaluated on the barrier-op-barrier graph. -/
theorem collector_refines_spec_grouping_witness :
    2 ≤ (barriersOf dagBarrierOpBarrier).length
    ∧ collect_potential_merges dagBarrierOpBarrier.ancestors dagBarrierOpBarrier.descendants
        (barriersOf dagBarrierOpBarrier)
      = some (specMapping dagBarrierOpBarrier.ancestors dagBarrierOpBarrier.descendants
          (barriersOf dagBarrierOpBarrier)) :=
  ⟨by decide, collector_refines_spec_grouping _ _ _ (by decide)⟩

/-- C7: in `marker(q0); op(q0); marker(q0)` the two markers are not
merged — the op is a descendant of the first marker and an ancestor of
the second, the merge condition fails, the groups stay singletons — and
both markers remain, unchanged, in the output. -/
theorem markers_not_merged_across_op :
    barriersOf dagBarrierOpBarrier = [tbNode0, bobNode2]
    ∧ xNode ∈ dagBarrierOpBarrier.descendants tbNode0
    ∧ xNode ∈ dagBarrierOpBarrier.ancestors bobNode2
    ∧ ¬ mergeCond dagBarrierOpBarrier.ancestors dagBarrierOpBarrier.descendants
        [tbNode0] bobNode2
    ∧ specGroups dagBarrierOpBarrier.ancestors dagBarrierOpBarrier.descendants
        (barriersOf dagBarrierOpBarrier) = [[tbNode0], [bobNode2]]
    ∧ (transform dagBarrierOpBarrier).nodes.map Node.strip
        = dagBarrierOpBarrier.nodes.map Node.strip := by
  decide

/-- C8: `transform` is not idempotent — on the docstring example
`marker(q0); marker(q1); marker(q0,q1,q2)` one call leaves two markers
and a second call merges them into one, so the second output differs
structurally from the first. -/
theorem transform_not_idempotent :
    (transform dagDocstring).nodes.length = 2
    ∧ (transform (transform dagDocstring)).nodes.length = 1
    ∧ transform (transform dagDocstring) ≠ transform dagDocstring := by
  decide

/-- C2 counterexample: on `barrier q[0]; barrier q[0]` the second barrier
is absorbed into the first's group (no entry is closed, the member list
becomes both barriers) yet the group's union descendant set still
contains the just-absorbed member — the group's own sets are not
re-pruned after an absorption. -/
theorem group_descendants_keep_member_counterexample :
    barriersOf dagTwoBarriers = [tbNode0, tbNode1]
    ∧ (collectStep dagTwoBarriers.ancestors dagTwoBarriers.descendants
        (initState dagTwoBarriers.ancestors dagTwoBarriers.descendants tbNode0)
        tbNode1).current_barrier_nodes = [tbNode0, tbNode1]
    ∧ (collectStep dagTwoBarriers.ancestors dagTwoBarriers.descendants
        (initState dagTwoBarriers.ancestors dagTwoBarriers.descendants tbNode0)
        tbNode1).node_to_barrier_qubits = []
    ∧ tbNode1 ∈ (collectStep dagTwoBarriers.ancestors dagTwoBarriers.descendants
        (initState dagTwoBarriers.ancestors dagTwoBarriers.descendants tbNode0)
        tbNode1).current_descendants := by
  decide

theorem collectStep_eq (anc desc : Node → Finset Node) (s : CollectState) (b : Node) :
    collectStep anc desc s b
      = if s.current_qubits ∩ b.qargs.toFinset ≠ ∅
            ∧ s.current_ancestors ∩ ((desc b).filter (fun nd => nd ∉ s.current_barrier_nodes)) = ∅
            ∧ s.current_descendants ∩ ((anc b).filter (fun nd => nd ∉ s.current_barrier_nodes)) = ∅
        then
          ⟨s.current_qubits ∪ b.qargs.toFinset,
            s.current_ancestors ∪ (anc b).filter (fun nd => nd ∉ s.current_barrier_nodes),
            s.current_descendants ∪ (desc b).filter (fun nd => nd ∉ s.current_barrier_nodes),
            s.current_barrier_nodes ++ [b], b, s.node_to_barrier_qubits⟩
        else
          ⟨b.qargs.toFinset, anc b, desc b, [b], b,
            s.node_to_barrier_qubits ++ [(s.end_of_barrier, s.current_qubits)]⟩ :=
  rfl

theorem collectStep_anc_inv (anc desc : Node → Finset Node) (s : CollectState) (b : Node)
    (rl : List Node)
    (h1 : ∀ m ∈ s.current_barrier_nodes, m ∉ s.current_ancestors)
    (h2 : ∀ x ∈ b :: rl, x ∉ s.current_ancestors)
    (h3 : ∀ x ∈ b :: rl, x ∉ anc x)
    (h4 : (b :: rl).Pairwise (fun x y => y ∉ anc x)) :
    (∀ m ∈ (collectStep anc desc s b).current_barrier_nodes,
        m ∉ (collectStep anc desc s b).current_ancestors)
    ∧ (∀ x ∈ rl, x ∉ (collectStep anc desc s b).current_ancestors)
    ∧ (∀ x ∈ rl, x ∉ anc x)
    ∧ rl.Pairwise (fun x y => y ∉ anc x) := by
  have hb_anc : b ∉ s.current_ancestors := h2 b (by simp)
  have hb_irr : b ∉ anc b := h3 b (by simp)
  have hrl_anc_b : ∀ x ∈ rl, x ∉ anc b := (List.pairwise_cons.mp h4).1
  rw [collectStep_eq]
  split
  · refine ⟨?_, ?_, fun x hx => h3 x (by simp [hx]), (List.pairwise_cons.mp h4).2⟩
    · intro m hm
      simp only [Finset.mem_union, Finset.mem_filter, not_or, not_and]
      rcases List.mem_append.mp hm with hmem | hmb
      · exact ⟨h1 m hmem, fun _ hnotin => hnotin hmem⟩
      · have hmb' : m = b := by simpa using hmb
        subst hmb'
        exact ⟨hb_anc, fun hmanc _ => hb_irr hmanc⟩
    · intro x hx
      simp only [Finset.mem_union, Finset.mem_filter, not_or, not_and]
      exact ⟨h2 x (by simp [hx]), fun hxanc _ => hrl_anc_b x hx hxanc⟩
  · refine ⟨?_, fun x hx => hrl_anc_b x hx, fun x hx => h3 x (by simp [hx]),
      (List.pairwise_cons.mp h4).2⟩
    intro m hm
    have hmb : m = b := by simpa using hm
    subst hmb
    exact hb_irr

theorem foldl_collectStep_anc_inv (anc desc : Node → Finset Node) :
    ∀ (rl : List Node) (s : CollectState),
      (∀ m ∈ s.current_barrier_nodes, m ∉ s.current_ancestors) →
      (∀ x ∈ rl, x ∉ s.current_ancestors) →
      (∀ x ∈ rl, x ∉ anc x) →
      rl.Pairwise (fun x y => y ∉ anc x) →
      ∀ k, ∀ m ∈ ((rl.take k).foldl (collectStep anc desc) s).current_barrier_nodes,
        m ∉ ((rl.take k).foldl (collectStep anc desc) s).current_ancestors := by
  intro rl
  induction rl with
  | nil =>
    intro s h1 _ _ _ k
    simpa using h1
  | cons b rl ih =>
    intro s h1 h2 h3 h4 k
    cases k with
    | zero => simpa using h1
    | succ k =>
      have step := collectStep_anc_inv anc desc s b rl h1 h2 h3 h4
      simpa using ih (collectStep anc desc s b) step.1 step.2.1 step.2.2.1 step.2.2.2 k

/-- C2 amended: when a marker is absorbed, only its own ancestor and
descendant sets are re-pruned (by the group's members at that moment)
before the union; the group's accumulated sets are not re-pruned.  As the
scan is in topological order, the union ancestor set nevertheless never
contains a group member after any number of steps, while the union
descendant set can retain an absorbed member (see the counterexample). -/
theorem group_ancestors_member_free (anc desc : Node → Finset Node) (b0 : Node)
    (rest : List Node)
    (hirr : ∀ x ∈ b0 :: rest, x ∉ anc x)
    (hpw : (b0 :: rest).Pairwise (fun x y => y ∉ anc x)) (k : Nat) :
    ∀ m ∈ ((rest.take k).foldl (collectStep anc desc)
        (initState anc desc b0)).current_barrier_nodes,
      m ∉ ((rest.take k).foldl (collectStep anc desc)
        (initState anc desc b0)).current_ancestors := by
  have h1 : ∀ m ∈ (initState anc desc b0).current_barrier_nodes,
      m ∉ (initState anc desc b0).current_ancestors := by
    intro m hm
    have hm' : m = b0 := by simpa [initState] using hm
    subst hm'
    exact hirr m (by simp)
  have h2 : ∀ x ∈ rest, x ∉ (initState anc desc b0).current_ancestors := by
    intro x hx
    exact (List.pairwise_cons.mp hpw).1 x hx
  have h3 : ∀ x ∈ rest, x ∉ anc x := fun x hx => hirr x (by simp [hx])
  exact foldl_collectStep_anc_inv anc desc rest (initState anc desc b0) h1 h2 h3
    (List.pairwise_cons.mp hpw).2 k

/-- C2 amended witness: on `barrier q[0]; barrier q[0]` after the (sole)
absorption step no group member lies in the union ancestor set. -/
theorem group_ancestors_member_free_witness :
    (∀ x ∈ [tbNode0, tbNode1], x ∉ dagTwoBarriers.ancestors x)
    ∧ ([tbNode0, tbNode1].Pairwise (fun x y => y ∉ dagTwoBarriers.ancestors x))
    ∧ ∀ m ∈ (([tbNode1].take 1).foldl
        (collectStep dagTwoBarriers.ancestors dagTwoBarriers.descendants)
        (initState dagTwoBarriers.ancestors dagTwoBarriers.descendants
          tbNode0)).current_barrier_nodes,
      m ∉ (([tbNode1].take 1).foldl
        (collectStep dagTwoBarriers.ancestors dagTwoBarriers.descendants)
        (initState dagTwoBarriers.ancestors dagTwoBarriers.descendants
          tbNode0)).current_ancestors :=
  ⟨by decide, by decide,
    group_ancestors_member_free dagTwoBarriers.ancestors dagTwoBarriers.descendants
      tbNode0 [tbNode1] (by decide) (by decide) 1⟩

theorem getLastD_mem : ∀ (l : List Node) (d : Node), l ≠ [] → l.getLastD d ∈ l := by
  intro l
  induction l with
  | nil => intro d h; exact absurd rfl h
  | cons a t ih =>
    intro d _
    rw [List.getLastD_cons]
    cases t with
    | nil => simp [List.getLastD]
    | cons b t' => exact List.mem_cons_of_mem a (ih a (by simp))

theorem specGo_mem (anc desc : Node → Finset Node) :
    ∀ (rest cur : List Node), cur ≠ [] →
      ∀ grp ∈ specGo anc desc cur rest, grp ≠ [] ∧ grp.Sublist (cur ++ rest) := by
  intro rest
  induction rest with
  | nil =>
    intro cur hcur grp hgrp
    have hg : grp = cur := by simpa [specGo] using hgrp
    subst hg
    exact ⟨hcur, by simp⟩
  | cons b rest ih =>
    intro cur hcur grp hgrp
    unfold specGo at hgrp
    by_cases h : mergeCond anc desc cur b
    · rw [if_pos h] at hgrp
      obtain ⟨hne, hsub⟩ := ih (cur ++ [b]) (by simp) grp hgrp
      refine ⟨hne, ?_⟩
      rwa [List.append_assoc, List.singleton_append] at hsub
    · rw [if_neg h] at hgrp
      rcases List.mem_cons.mp hgrp with hg | hgrp'
      · subst hg
        exact ⟨hcur, List.sublist_append_left grp (b :: rest)⟩
      · obtain ⟨hne, hsub⟩ := ih [b] (by simp) grp hgrp'
        have hsub' : grp.Sublist (b :: rest) := by simpa using hsub
        exact ⟨hne, hsub'.trans (List.sublist_append_right cur (b :: rest))⟩

theorem specGroups_mem (anc desc : Node → Finset Node) (bs : List Node) :
    ∀ grp ∈ specGroups anc desc bs, grp ≠ [] ∧ grp.Sublist bs := by
  cases bs with
  | nil => intro grp hgrp; simp [specGroups] at hgrp
  | cons b0 rest =>
    intro grp hgrp
    have h := specGo_mem anc desc rest [b0] (by simp) grp hgrp
    simpa using h

theorem indexOf_lt_of_sublist :
    ∀ (l : List Node) (a b : Node), [a, b].Sublist l → l.Nodup →
      l.indexOf a < l.indexOf b := by
  intro l
  induction l with
  | nil =>
    intro a b hab _
    exact absurd (List.sublist_nil.mp hab) (by simp)
  | cons c t ih =>
    intro a b hab hnd
    obtain ⟨hc, ht⟩ := List.nodup_cons.mp hnd
    cases hab with
    | cons x hab' =>
      have hat : a ∈ t := hab'.subset (by simp)
      have hbt : b ∈ t := hab'.subset (by simp)
      have hca : c ≠ a := fun he => hc (he ▸ hat)
      have hcb : c ≠ b := fun he => hc (he ▸ hbt)
      rw [List.indexOf_cons_ne _ hca, List.indexOf_cons_ne _ hcb]
      exact Nat.succ_lt_succ (ih a b hab' ht)
    | cons₂ x hab' =>
      have hbt : b ∈ t := hab'.subset (by simp)
      have hcb : c ≠ b := fun he => hc (he ▸ hbt)
      rw [List.indexOf_cons_self, List.indexOf_cons_ne _ hcb]
      exact Nat.succ_pos _

theorem nodup_pairwise_indexOf (l : List Node) (h : l.Nodup) :
    l.Pairwise (fun x y => l.indexOf x < l.indexOf y) := by
  rw [List.pairwise_iff_forall_sublist]
  intro a b hab
  exact indexOf_lt_of_sublist l a b hab h

theorem pairwise_rel_getLastD {R : Node → Node → Prop} :
    ∀ (l : List Node) (d : Node), l.Pairwise R → ∀ x ∈ l,
      x = l.getLastD d ∨ R x (l.getLastD d) := by
  intro l
  induction l with
  | nil => intro d _ x hx; exact absurd hx (by simp)
  | cons a t ih =>
    intro d hpw x hx
    rw [List.getLastD_cons]
    rcases List.mem_cons.mp hx with hxa | hxt
    · subst hxa
      cases t with
      | nil => left; rfl
      | cons b t' =>
        right
        exact (List.pairwise_cons.mp hpw).1 _ (getLastD_mem (b :: t') x (by simp))
    · exact ih a (List.pairwise_cons.mp hpw).2 x hxt

theorem pairwise_rel_anchorOf {R : Node → Node → Prop} (l : List Node) (hpw : l.Pairwise R) :
    ∀ x ∈ l, x = anchorOf l ∨ R x (anchorOf l) :=
  pairwise_rel_getLastD l dummyNode hpw

theorem specMapping_anchor_last (anc desc : Node → Finset Node) (bs : List Node)
    (hnd : bs.Nodup) :
    ∀ p ∈ specMapping anc desc bs, ∃ grp,
      grp ∈ specGroups anc desc bs ∧ grp ≠ [] ∧ grp.Sublist bs
      ∧ p.1 = anchorOf grp ∧ p.2 = grpQubits grp
      ∧ ∀ x ∈ grp, bs.indexOf x ≤ bs.indexOf p.1 := by
  intro p hp
  obtain ⟨grp, hgrp, hpe⟩ := List.mem_map.mp hp
  obtain ⟨hne, hsub⟩ := specGroups_mem anc desc bs grp hgrp
  have hpw := List.Pairwise.sublist hsub (nodup_pairwise_indexOf bs hnd)
  have hp1 : p.1 = anchorOf grp := by rw [← hpe]
  have hp2 : p.2 = grpQubits grp := by rw [← hpe]
  refine ⟨grp, hgrp, hne, hsub, hp1, hp2, ?_⟩
  intro x hx
  rw [hp1]
  rcases pairwise_rel_anchorOf grp hpw x hx with heq | hlt
  · exact le_of_eq (by rw [heq])
  · exact Nat.le_of_lt hlt

/-- C4: every key of the collector's mapping is its group's last member
in topological order (no member has a larger index in the barrier walk),
and the rewriter emits the collapsed marker exactly where the anchor
stood in the topological walk (the output's strip sequence is the walk
filter-mapped through `emit`), so the collapsed marker is placed no
earlier than any member's position. -/
theorem anchor_is_last_member (d : DAG)
    (h2 : 2 ≤ (barriersOf d).length) (hnd : (barriersOf d).Nodup) :
    ∃ m, collect_potential_merges d.ancestors d.descendants (barriersOf d) = some m
      ∧ ((transform d).nodes).map Node.strip = d.nodes.filterMap (emit m)
      ∧ ∀ p ∈ m, ∃ grp,
          grp ∈ specGroups d.ancestors d.descendants (barriersOf d)
          ∧ grp ≠ [] ∧ grp.Sublist (barriersOf d)
          ∧ p.1 = anchorOf grp
          ∧ ∀ x ∈ grp, (barriersOf d).indexOf x ≤ (barriersOf d).indexOf p.1 := by
  have hc := collect_eq_spec d.ancestors d.descendants (barriersOf d) h2
  refine ⟨_, hc, ?_, ?_⟩
  · show ((run d).nodes).map Node.strip = _
    rw [run_eq_build d _ hc, buildFold_strip]
    rfl
  · intro p hp
    obtain ⟨grp, hgrp, hne, hsub, hp1, _, hidx⟩ :=
      specMapping_anchor_last d.ancestors d.descendants (barriersOf d) hnd p hp
    exact ⟨grp, hgrp, hne, hsub, hp1, hidx⟩

/-- C4 witness: evaluated on the barrier-op-barrier graph. -/
theorem anchor_is_last_member_witness :
    2 ≤ (barriersOf dagBarrierOpBarrier).length
    ∧ (barriersOf dagBarrierOpBarrier).Nodup
    ∧ ∃ m, collect_potential_merges dagBarrierOpBarrier.ancestors
          dagBarrierOpBarrier.descendants (barriersOf dagBarrierOpBarrier) = some m
        ∧ ((transform dagBarrierOpBarrier).nodes).map Node.strip
            = dagBarrierOpBarrier.nodes.filterMap (emit m)
        ∧ ∀ p ∈ m, ∃ grp,
            grp ∈ specGroups dagBarrierOpBarrier.ancestors dagBarrierOpBarrier.descendants
              (barriersOf dagBarrierOpBarrier)
            ∧ grp ≠ [] ∧ grp.Sublist (barriersOf dagBarrierOpBarrier)
            ∧ p.1 = anchorOf grp
            ∧ ∀ x ∈ grp, (barriersOf dagBarrierOpBarrier).indexOf x
                ≤ (barriersOf dagBarrierOpBarrier).indexOf p.1 :=
  ⟨by decide, by decide, anchor_is_last_member dagBarrierOpBarrier (by decide) (by decide)⟩

theorem mem_grpQubits_aux :
    ∀ (grp : List Node) (acc : Finset Nat) (q : Nat),
      q ∈ grp.foldl (fun a nd => a ∪ nd.qargs.toFinset) acc
        ↔ q ∈ acc ∨ ∃ nd ∈ grp, q ∈ nd.qargs := by
  intro grp
  induction grp with
  | nil => intro acc q; simp
  | cons hd tl ih =>
    intro acc q
    rw [List.foldl_cons, ih]
    simp [Finset.mem_union, List.mem_toFinset, or_assoc]

theorem mem_grpQubits (grp : List Node) (q : Nat) :
    q ∈ grpQubits grp ↔ ∃ nd ∈ grp, q ∈ nd.qargs := by
  rw [grpQubits, mem_grpQubits_aux]
  simp

theorem listOfQubits_toFinset (q : Finset Nat) : (listOfQubits q).toFinset = q := by
  ext x
  simp only [listOfQubits, List.mem_toFinset, List.mem_filter, List.mem_range,
    Nat.lt_succ_iff, decide_eq_true_eq]
  constructor
  · rintro ⟨_, hx⟩
    exact hx
  · intro hx
    have hle : id x ≤ q.sup id := Finset.le_sup hx
    exact ⟨hle, hx⟩

theorem lookupMap_eq_some :
    ∀ (m : List (Node × Finset Nat)) (p : Node × Finset Nat), p ∈ m →
      (m.map Prod.fst).Nodup → lookupMap p.1 m = some p.2 := by
  intro m
  induction m with
  | nil => intro p hp _; simp at hp
  | cons kv t ih =>
    intro p hp hk
    obtain ⟨k, v⟩ := kv
    rcases List.mem_cons.mp hp with hp1 | hpt
    · subst hp1
      simp [lookupMap]
    · have hk1 : k ∉ t.map Prod.fst := by simpa using (List.nodup_cons.mp hk).1
      have hne : p.1 ≠ k := by
        intro he
        exact hk1 (he ▸ List.mem_map_of_mem Prod.fst hpt)
      rw [lookupMap, if_neg hne]
      exact ih p hpt (List.nodup_cons.mp hk).2

theorem specGo_anchors_nodup (anc desc : Node → Finset Node) :
    ∀ (rest cur : List Node), cur ≠ [] → (cur ++ rest).Nodup →
      ((specGo anc desc cur rest).map anchorOf).Nodup := by
  intro rest
  induction rest with
  | nil => intro cur hcur hnd; simp [specGo]
  | cons b rest ih =>
    intro cur hcur hnd
    unfold specGo
    by_cases h : mergeCond anc desc cur b
    · rw [if_pos h]
      apply ih (cur ++ [b]) (by simp)
      rwa [List.append_assoc, List.singleton_append]
    · rw [if_neg h]
      rw [List.map_cons, List.nodup_cons]
      constructor
      · intro hmem
        obtain ⟨grp, hgrp, heq⟩ := List.mem_map.mp hmem
        obtain ⟨hne, hsub⟩ := specGo_mem anc desc rest [b] (by simp) grp hgrp
        have hin : anchorOf grp ∈ b :: rest := by
          have hh := hsub.subset (getLastD_mem grp dummyNode hne)
          simpa [anchorOf] using hh
        have hout : anchorOf cur ∈ cur := getLastD_mem cur dummyNode hcur
        have hdisj := List.disjoint_of_nodup_append hnd
        exact hdisj hout (heq ▸ hin)
      · apply ih [b] (by simp)
        have hsub2 : (b :: rest).Sublist (cur ++ b :: rest) :=
          List.sublist_append_right cur (b :: rest)
        simpa using hnd.sublist hsub2

theorem specMapping_keys_nodup (anc desc : Node → Finset Node) (bs : List Node)
    (hnd : bs.Nodup) : ((specMapping anc desc bs).map Prod.fst).Nodup := by
  cases bs with
  | nil => simp [specMapping, specGroups]
  | cons b0 rest =>
    have h := specGo_anchors_nodup anc desc rest [b0] (by simp) (by simpa using hnd)
    simpa [specMapping, specGroups, List.map_map, Function.comp] using h

/-- C5: for every merge group, the mapping's qubit set is exactly the
union of the group members' qubit sets; the fresh collapsed marker
created for the anchor has that union as its operand set and declared
width equal to the union's cardinality, and it occurs in the output. -/
theorem merged_marker_resources (d : DAG)
    (h2 : 2 ≤ (barriersOf d).length) (hnd : (barriersOf d).Nodup) :
    ∃ m, collect_potential_merges d.ancestors d.descendants (barriersOf d) = some m
      ∧ ∀ p ∈ m, ∃ grp,
          grp ∈ specGroups d.ancestors d.descendants (barriersOf d)
          ∧ p.2 = grpQubits grp
          ∧ (∀ q, q ∈ p.2 ↔ ∃ nd ∈ grp, q ∈ nd.qargs)
          ∧ emit m p.1 = some (Barrier p.2.card, listOfQubits p.2, [], none)
          ∧ (listOfQubits p.2).toFinset = p.2
          ∧ (Barrier p.2.card, listOfQubits p.2, ([] : List Nat), (none : Option (Nat × Nat)))
              ∈ ((transform d).nodes).map Node.strip := by
  have hc := collect_eq_spec d.ancestors d.descendants (barriersOf d) h2
  have hstrip : ((transform d).nodes).map Node.strip
      = d.nodes.filterMap (emit (specMapping d.ancestors d.descendants (barriersOf d))) := by
    show ((run d).nodes).map Node.strip = _
    rw [run_eq_build d _ hc, buildFold_strip]
    rfl
  refine ⟨_, hc, ?_⟩
  intro p hp
  obtain ⟨grp, hgrp, hne, hsub, hp1, hp2, _⟩ :=
    specMapping_anchor_last d.ancestors d.descendants (barriersOf d) hnd p hp
  have hanch_grp : p.1 ∈ grp := by
    rw [hp1]
    exact getLastD_mem grp dummyNode hne
  have hanch_bs : p.1 ∈ barriersOf d := hsub.subset hanch_grp
  obtain ⟨hnodes, hbarrier⟩ := List.mem_filter.mp hanch_bs
  have hlookup : lookupMap p.1 (specMapping d.ancestors d.descendants (barriersOf d))
      = some p.2 :=
    lookupMap_eq_some _ p hp (specMapping_keys_nodup _ _ _ hnd)
  have hemit : emit (specMapping d.ancestors d.descendants (barriersOf d)) p.1
      = some (Barrier p.2.card, listOfQubits p.2, [], none) := by
    unfold emit
    rw [if_pos hbarrier, hlookup]
  refine ⟨grp, hgrp, hp2, ?_, hemit, listOfQubits_toFinset p.2, ?_⟩
  · intro q
    rw [hp2]
    exact mem_grpQubits grp q
  · rw [hstrip]
    exact List.mem_filterMap.mpr ⟨p.1, hnodes, hemit⟩

/-- C5 witness: evaluated on the barrier-op-barrier graph. -/
theorem merged_marker_resources_witness :
    2 ≤ (barriersOf dagBarrierOpBarrier).length
    ∧ (barriersOf dagBarrierOpBarrier).Nodup
    ∧ ∃ m, collect_potential_merges dagBarrierOpBarrier.ancestors
          dagBarrierOpBarrier.descendants (barriersOf dagBarrierOpBarrier) = some m
        ∧ ∀ p ∈ m, ∃ grp,
            grp ∈ specGroups dagBarrierOpBarrier.ancestors dagBarrierOpBarrier.descendants
              (barriersOf dagBarrierOpBarrier)
            ∧ p.2 = grpQubits grp
            ∧ (∀ q, q ∈ p.2 ↔ ∃ nd ∈ grp, q ∈ nd.qargs)
            ∧ emit m p.1 = some (Barrier p.2.card, listOfQubits p.2, [], none)
            ∧ (listOfQubits p.2).toFinset = p.2
            ∧ (Barrier p.2.card, listOfQubits p.2, ([] : List Nat), (none : Option (Nat × Nat)))
                ∈ ((transform dagBarrierOpBarrier).nodes).map Node.strip :=
  ⟨by decide, by decide, merged_marker_resources dagBarrierOpBarrier (by decide) (by decide)⟩
